import Mathlib

/-!
Shallow embedding of the yt-rss feed pipeline (Go): data model, merge/dedup,
stable ordering, enrichment (title normalization and duration extraction),
filtering, worker-pool fetch, and the cache write, with theorems checking the
specification claims against these definitions.
-/

deriving instance DecidableEq for Except

namespace YtRss

/-- Author block of a feed entry (source struct `FeedEntry.Author`). -/
structure AuthorInfo where
  name : String
  deriving DecidableEq, Repr

/-- Media content block (source struct `FeedEntry.MediaGroup.Content`). -/
structure MediaContent where
  url : String
  deriving DecidableEq, Repr

/-- Media group block (source struct `FeedEntry.MediaGroup`). -/
structure MediaGroup where
  title : String
  content : MediaContent
  deriving DecidableEq, Repr

/-- Extra metadata of a feed entry (source struct `FeedEntry.ExtraMetadata`).
`videoDuration` is a Go `time.Duration` in nanoseconds, whose zero value means
"absent"; `normalizedTitle` empty means "absent". -/
structure ExtraMetadata where
  videoDuration : Nat
  normalizedTitle : String
  deriving DecidableEq, Repr

/-- One feed entry (source struct `FeedEntry`). `published` abstracts the
RFC3339 timestamp string as a point on a discrete time axis: the code only
uses the parsed timestamp through the strict `After` comparison, so only the
order matters. -/
structure FeedEntry where
  id : String
  ytVideoID : String
  published : Nat
  updated : String
  author : AuthorInfo
  mediaGroup : MediaGroup
  extraMetadata : ExtraMetadata
  deriving DecidableEq, Repr

/-- Source method `GetPublishedDate`; under the timestamp abstraction it
projects the published time. -/
def FeedEntry.getPublishedDate (e : FeedEntry) : Nat := e.published

/-- One parsed feed (source struct `Feed`; the XML name field is constant). -/
structure Feed where
  entries : List FeedEntry
  deriving DecidableEq, Repr

/-- Configuration constant `shortsThreshold = 80 * time.Second`, in
nanoseconds. -/
def shortsThreshold : Nat := 80 * 1000000000

/-- The filter predicate of `shouldFilterOutEntry`, with the configured
threshold made an explicit parameter (the source reads the package-level
configuration variable `shortsThreshold`; the design document treats the
threshold as configuration). -/
def shouldFilterOutEntryWith (threshold : Nat) (entry : FeedEntry) : Bool :=
  entry.extraMetadata.videoDuration > 0 &&
    entry.extraMetadata.videoDuration < threshold

/-- Source function `shouldFilterOutEntry`, at the configured threshold. -/
def shouldFilterOutEntry (entry : FeedEntry) : Bool :=
  shouldFilterOutEntryWith shortsThreshold entry

/-- Word character of the Go RE2 `\w` class: `[0-9A-Za-z_]`. -/
def isWordChar (c : Char) : Bool := c.isAlphanum || c == '_'

/-- Wordness of the character at index `i` of `run`, where an index one past
the end stands for the first character following the run (`afterW`). Used to
evaluate `\b` inside the hashtag token. -/
def wordAt (run : List Char) (afterW : Bool) (i : Nat) : Bool :=
  match run.drop i with
  | c :: _ => isWordChar c
  | [] => afterW

/-- Length taken by the greedy `[\w_-]+\b` part of `hashtagRegex`: the longest
nonempty prefix of `run` (the maximal `[\w_-]` character run) whose end is at
a `\b` word boundary; candidates are tried longest first, mirroring greedy
matching. -/
def bestHashtagLen (run : List Char) (afterW : Bool) : Nat → Option Nat
  | 0 => none
  | n + 1 =>
    if wordAt run afterW n != wordAt run afterW (n + 1) then some (n + 1)
    else bestHashtagLen run afterW n

/-- Replacement pass `hashtagRegex.ReplaceAllString(title, "")` for the source pattern
`\B(#[\w_-]+\b)`: a single left-to-right scan replacing each non-overlapping
leftmost match by the empty string. `prev` is the character just before the
scan position (for the `\B` zero-width test) and the `Nat` argument is fuel,
bounded by the list length, making the recursion structural. -/
def stripHashtagsAux : Nat → Option Char → List Char → List Char
  | 0, _, _ => []
  | _ + 1, _, [] => []
  | fuel + 1, prev, c :: rest =>
    let prevW : Bool := match prev with | some p => isWordChar p | none => false
    if c == '#' && !prevW then
      let run := rest.takeWhile (fun x => isWordChar x || x == '-')
      let afterW : Bool :=
        match rest.drop run.length with
        | x :: _ => isWordChar x
        | [] => false
      match bestHashtagLen run afterW run.length with
      | some t => stripHashtagsAux fuel ((run.drop (t - 1)).head?) (rest.drop t)
      | none => c :: stripHashtagsAux fuel (some c) rest
    else c :: stripHashtagsAux fuel (some c) rest

/-- Source function `normalizeTitle`: lower-case the title (the Go
`cases.Lower(language.English)` caser, modelled at ASCII as the relevant
titles are ASCII), upper-case the first rune via `unicode.ToUpper`, then
remove hashtag tokens via `hashtagRegex`. Indexing `r[0]` on an empty title is
an out-of-range panic, modelled as `none`. -/
def normalizeTitle (title : String) : Option String :=
  match title.toList.map Char.toLower with
  | [] => none
  | c :: rest =>
    let sentenceCased := Char.toUpper c :: rest
    some ⟨stripHashtagsAux sentenceCased.length none sentenceCased⟩

/-- Decimal value of a digit run captured by a `\d+` group. -/
def digitsToNat (l : List Char) : Nat :=
  l.foldl (fun acc c => acc * 10 + (c.toNat - '0'.toNat)) 0

/-- Match of `iso8601DurationSimplifiedRegex` = `PT(\d+)M(\d+)S` anchored at
the head of the list: literal `PT`, a maximal nonempty digit run, literal `M`,
a maximal nonempty digit run, literal `S`. (A shorter digit run cannot
succeed where the maximal one fails, since the character after a shorter run
is a digit, not `M`/`S`.) -/
def matchPTAt (l : List Char) : Option (Nat × Nat) :=
  match l with
  | 'P' :: 'T' :: rest =>
    let ds1 := rest.takeWhile Char.isDigit
    if ds1.isEmpty then none
    else
      match rest.drop ds1.length with
      | 'M' :: rest2 =>
        let ds2 := rest2.takeWhile Char.isDigit
        if ds2.isEmpty then none
        else
          match rest2.drop ds2.length with
          | 'S' :: _ => some (digitsToNat ds1, digitsToNat ds2)
          | _ => none
      | _ => none
  | _ => none

/-- Leftmost match of `iso8601DurationSimplifiedRegex` over the captured
duration string (`FindStringSubmatch` scans for the leftmost position where
the pattern matches). -/
def findPTMatch : List Char → Option (Nat × Nat)
  | [] => none
  | c :: rest =>
    match matchPTAt (c :: rest) with
    | some r => some r
    | none => findPTMatch rest

/-- The literal part of `youtubeDurationRegex` before the capture group. -/
def durationMetaPat : List Char := "<meta itemprop=\"duration\" content=\"".toList

/-- The non-greedy capture `(.+?)` followed by the literal `">` in
`youtubeDurationRegex`: the shortest nonempty character run ending right
before the first `">` occurrence, containing no newline (RE2 `.` does not
match newline); `none` when no such run exists from this position. `acc`
holds the capture so far, reversed. -/
def captureUpToQuoteGt (acc : List Char) : List Char → Option (List Char)
  | [] => none
  | c :: rest =>
    if !acc.isEmpty && c == '"' && rest.head? == some '>' then some acc.reverse
    else if c == '\n' then none
    else captureUpToQuoteGt (c :: acc) rest

/-- Leftmost match of `youtubeDurationRegex` over the response body: at each
position try the literal prefix and then the non-greedy capture; on failure
resume the scan one character later. Returns the captured duration string. -/
def findMetaCapture : List Char → Option (List Char)
  | [] => none
  | c :: rest =>
    if durationMetaPat.isPrefixOf (c :: rest) then
      match captureUpToQuoteGt [] ((c :: rest).drop durationMetaPat.length) with
      | some cap => some cap
      | none => findMetaCapture rest
    else findMetaCapture rest

/-- Upper bound of Go `time.Duration` (a 64-bit signed nanosecond count). -/
def maxDurationNs : Nat := 9223372036854775807

/-- Source function `getVideoDuration`, over the already-read response body
(transport errors of the HTTP fetch are outside this model): match the outer
wrapper pattern, then the simplified minutes+seconds pattern, then convert
via `time.ParseDuration("<m>m<s>s")`, which fails when the value overflows
the 64-bit nanosecond duration. Returns nanoseconds. -/
def getVideoDuration (body : String) : Except String Nat :=
  match findMetaCapture body.toList with
  | none => Except.error "duration not found"
  | some durationString =>
    match findPTMatch durationString with
    | none => Except.error "duration not parsed correctly"
    | some (m, s) =>
      let ns := m * 60000000000 + s * 1000000000
      if ns ≤ maxDurationNs then Except.ok ns
      else Except.error "time: invalid duration"

/-- The title-normalization half of `addMetadata`: fill `normalizedTitle` when
it is absent; `none` propagates the panic of `normalizeTitle` on an empty
title. -/
def normalizeStep (entry : FeedEntry) : Option FeedEntry :=
  if entry.extraMetadata.normalizedTitle == "" then
    match normalizeTitle entry.mediaGroup.title with
    | none => none
    | some t => some { entry with extraMetadata.normalizedTitle := t }
  else some entry

/-- Source function `addMetadata` for one entry. `fetch` is the outcome
`getVideoDuration` produces for the media URL of the entry. When the duration is
absent and the fetch fails, the function logs and returns early, leaving the
entry unchanged — in particular the title is not normalized on that path.
`none` models a panic. -/
def addMetadata (fetch : Except String Nat) (entry : FeedEntry) :
    Option FeedEntry :=
  if entry.extraMetadata.videoDuration == 0 then
    match fetch with
    | Except.error _ => some entry
    | Except.ok d =>
      normalizeStep { entry with extraMetadata.videoDuration := d }
  else normalizeStep entry

/-- One dedup pass of `getFeedEntries`: append each entry whose `ID` is not in
the seen set, threading the seen set through (the Go code uses a
`map[string]bool`, modelled extensionally as a list of ids). Returns the
appended entries and the final seen set. -/
def dedup (seen : List String) : List FeedEntry → List FeedEntry × List String
  | [] => ([], seen)
  | v :: rest =>
    if v.id ∈ seen then dedup seen rest
    else
      let r := dedup (v.id :: seen) rest
      (v :: r.1, r.2)

/-- The merge/dedup step of `getFeedEntries`: one pass over the cached entries
followed by one pass over the entries of every fetched feed in order, first seen
`id` wins, output in append order. -/
def mergeEntries (cachedFeedEntries : List FeedEntry) (feeds : List Feed) :
    List FeedEntry :=
  let c := dedup [] cachedFeedEntries
  let f := dedup c.2 (feeds.flatMap Feed.entries)
  c.1 ++ f.1

/-- Insertion step of the stable descending sort: the new element goes after
every element whose published time is greater than or equal to its own
(`sort.SliceStable` with `GetPublishedDate().After` as the less function). -/
def insertDesc (e : FeedEntry) : List FeedEntry → List FeedEntry
  | [] => [e]
  | x :: xs =>
    if x.published < e.published then e :: x :: xs else x :: insertDesc e xs

/-- The `sort.SliceStable(entries, published After)` call of `getFeedEntries`,
as a stable insertion sort: the stable sort of a list under a fixed comparison
is unique, so any stable algorithm (the source uses symmerge) has the same
extension. -/
def sortEntries (l : List FeedEntry) : List FeedEntry :=
  l.foldl (fun acc e => insertDesc e acc) []

/-- One `getFeeds` worker over the sequence of fetch outcomes it dequeues: on
the first error it sends the error and returns (the loop body does `return`,
not `continue`), abandoning every later outcome. Returns the feeds it
appended and the errors it sent. -/
def workerRun : List (Except String Feed) → List Feed × List String
  | [] => ([], [])
  | Except.error e :: _ => ([], [e])
  | Except.ok f :: rest =>
    let r := workerRun rest
    (f :: r.1, r.2)

/-- Source function `getFeeds` over a per-worker division of the fetch
outcomes. Its final reporting loop `for err := range errCh` ranges over a
channel that nobody closes, so whenever at least one error was reported the
loop blocks forever after draining the buffer and `getFeeds` never returns;
non-termination is modelled as `none`. -/
def getFeedsModel (assignments : List (List (Except String Feed))) :
    Option (List Feed) :=
  let runs := assignments.map workerRun
  let feeds := (runs.map Prod.fst).flatten
  let errs := (runs.map Prod.snd).flatten
  if errs.isEmpty then some feeds else none

/-- File permission bits passed by `writeToCache` to `os.WriteFile`. -/
def writeToCachePerm : Nat := 0o600

/-- Observable cache-file states inside `writeToCache`, during
`os.WriteFile(cacheFile, b, 0600)`: `WriteFile` opens the existing file with
`O_TRUNC` and then writes the bytes sequentially, so a concurrent reader or a
crash can observe the old content, the truncated file, or any prefix of the
new bytes; the final state is the full new content. -/
def writeFileStates (old newContent : List Nat) : List (List Nat) :=
  old :: (List.range (newContent.length + 1)).map (fun k => newContent.take k)

/-- Helper to build concrete feed entries for witnesses. -/
def sampleEntry (i : String) (pub dur : Nat) (title normTitle : String) :
    FeedEntry :=
  { id := i
    ytVideoID := i
    published := pub
    updated := ""
    author := { name := "chan" }
    mediaGroup := { title := title, content := { url := "https://example/v" } }
    extraMetadata := { videoDuration := dur, normalizedTitle := normTitle } }

/-- Cached copy of the duplicated entry: already enriched. -/
def cachedSample : FeedEntry := sampleEntry "vid1" 10 5000000000 "Old Title" "Old title"

/-- Fresh copy of the duplicated entry: same id, not yet enriched. -/
def freshSample : FeedEntry := sampleEntry "vid1" 10 0 "Old Title" ""

/-- A fresh feed containing the duplicate of the cached entry. -/
def freshFeed : Feed := ⟨[freshSample]⟩

/-- An entry with neither duration nor normalized title filled. -/
def unenrichedEntry : FeedEntry := sampleEntry "vid2" 7 0 "Some Video" ""

/-- A cached entry with duration present but an empty raw title and no
normalized title. -/
def emptyTitleEntry : FeedEntry := sampleEntry "vid9" 5 240000000000 "" ""

/-- A fetch outcome for a failing locator. -/
def failedFetch : Except String Feed := Except.error "fetch feed: connection refused"

/-- A feed a healthy locator would produce. -/
def okFeed : Feed := ⟨[sampleEntry "vid3" 3 0 "T" ""]⟩

/-- Response body whose duration matches both patterns but overflows the
64-bit duration: ten-trillion minutes. -/
def overflowBody : String := "<meta itemprop=\"duration\" content=\"PT10000000000000M0S\">"

/-- Response body with an ordinary minutes+seconds duration. -/
def durationBody : String := "<meta itemprop=\"duration\" content=\"PT4M13S\">"

/-- Response body whose duration has an hours component. -/
def hoursBody : String := "<meta itemprop=\"duration\" content=\"PT1H02M03S\">"

theorem dedup_id_not_seen (l : List FeedEntry) :
    ∀ (seen : List String) (s : String),
      s ∈ ((dedup seen l).1.map FeedEntry.id) → s ∉ seen := by
  induction l with
  | nil => intro seen s h; simp [dedup] at h
  | cons v rest ih =>
    intro seen s h hs
    by_cases hv : v.id ∈ seen
    · rw [show dedup seen (v :: rest) = dedup seen rest by simp [dedup, hv]] at h
      exact ih seen s h hs
    · simp only [dedup, if_neg hv, List.map_cons, List.mem_cons] at h
      rcases h with h | h
      · exact hv (h ▸ hs)
      · exact ih (v.id :: seen) s h (List.mem_cons_of_mem _ hs)

theorem dedup_seen_sub (l : List FeedEntry) :
    ∀ (seen : List String) (s : String),
      s ∈ seen ∨ s ∈ ((dedup seen l).1.map FeedEntry.id) →
        s ∈ (dedup seen l).2 := by
  induction l with
  | nil =>
    intro seen s h
    simp only [dedup, List.map_nil, List.not_mem_nil, or_false] at h
    simpa [dedup] using h
  | cons v rest ih =>
    intro seen s h
    by_cases hv : v.id ∈ seen
    · simp only [dedup, if_pos hv] at h ⊢
      exact ih seen s h
    · simp only [dedup, if_neg hv, List.map_cons, List.mem_cons] at h ⊢
      rcases h with h | h | h
      · exact ih _ s (Or.inl (List.mem_cons_of_mem _ h))
      · exact ih _ s (Or.inl (h ▸ List.mem_cons_self _ _))
      · exact ih _ s (Or.inr h)

theorem dedup_nodup (l : List FeedEntry) :
    ∀ seen : List String, ((dedup seen l).1.map FeedEntry.id).Nodup := by
  induction l with
  | nil => intro seen; simp [dedup]
  | cons v rest ih =>
    intro seen
    by_cases hv : v.id ∈ seen
    · simp only [dedup, if_pos hv]; exact ih seen
    · simp only [dedup, if_neg hv, List.map_cons]
      refine List.nodup_cons.mpr ⟨?_, ih _⟩
      intro hmem
      exact dedup_id_not_seen rest (v.id :: seen) v.id hmem
        (List.mem_cons_self _ _)

theorem dedup_find_eq (l : List FeedEntry) :
    ∀ (seen : List String) (s : String), s ∉ seen →
      (dedup seen l).1.find? (fun e => e.id == s)
        = l.find? (fun e => e.id == s) := by
  induction l with
  | nil => intro seen s _; simp [dedup]
  | cons v rest ih =>
    intro seen s hs
    by_cases hv : v.id ∈ seen
    · have hne : (v.id == s) = false := by
        simp only [beq_eq_false_iff_ne, ne_eq]
        intro h; exact hs (h ▸ hv)
      simp only [dedup, if_pos hv, List.find?_cons, hne, cond_false]
      exact ih seen s hs
    · by_cases hid : v.id = s
      · have htrue : (v.id == s) = true := by simp [hid]
        simp only [dedup, if_neg hv, List.find?_cons, htrue, cond_true]
      · have hne : (v.id == s) = false := beq_eq_false_iff_ne.mpr hid
        have hs' : s ∉ v.id :: seen := by
          intro h
          rcases List.mem_cons.mp h with h | h
          · exact hid h.symm
          · exact hs h
        simp only [dedup, if_neg hv, List.find?_cons, hne, cond_false]
        exact ih (v.id :: seen) s hs'

/-- C1: for every list of cached items and every list of freshly fetched
feeds, the merged item list produced by the merge/dedup step of
`getFeedEntries` contains no two entries sharing the same `id`. -/
theorem c1_merge_ids_nodup (cachedFeedEntries : List FeedEntry)
    (feeds : List Feed) :
    ((mergeEntries cachedFeedEntries feeds).map FeedEntry.id).Nodup := by
  unfold mergeEntries
  rw [List.map_append, List.nodup_append]
  refine ⟨dedup_nodup _ _, dedup_nodup _ _, ?_⟩
  intro s hs1 hs2
  exact dedup_id_not_seen _ _ s hs2 (dedup_seen_sub _ _ s (Or.inr hs1))

/-- C3: for every `id` present both among the cached entries and among the
freshly fetched entries, the merge keeps exactly the cached copy: looking the
id up in the merged list yields the same entry (all fields, including the
enrichment metadata) as looking it up among the cached entries. -/
theorem c3_cached_copy_wins (cachedFeedEntries : List FeedEntry)
    (feeds : List Feed) (s : String)
    (hc : ∃ e ∈ cachedFeedEntries, e.id = s)
    (_hf : ∃ e ∈ feeds.flatMap Feed.entries, e.id = s) :
    (mergeEntries cachedFeedEntries feeds).find? (fun e => e.id == s)
      = cachedFeedEntries.find? (fun e => e.id == s) := by
  obtain ⟨e, he, heid⟩ := hc
  have h1 : (dedup [] cachedFeedEntries).1.find? (fun e => e.id == s)
      = cachedFeedEntries.find? (fun e => e.id == s) :=
    dedup_find_eq cachedFeedEntries [] s (by simp)
  have h2 : (cachedFeedEntries.find? (fun e => e.id == s)).isSome := by
    rw [List.find?_isSome]
    exact ⟨e, he, by simp [heid]⟩
  obtain ⟨a, ha⟩ := Option.isSome_iff_exists.mp h2
  unfold mergeEntries
  rw [List.find?_append, h1, ha]
  rfl

/-- C3 witness: a concrete id cached (already enriched) and fetched again;
the merged lookup returns the cached copy. -/
theorem c3_witness :
    (∃ e ∈ [cachedSample], e.id = "vid1")
    ∧ (∃ e ∈ [freshFeed].flatMap Feed.entries, e.id = "vid1")
    ∧ (mergeEntries [cachedSample] [freshFeed]).find? (fun e => e.id == "vid1")
        = [cachedSample].find? (fun e => e.id == "vid1") :=
  ⟨by decide, by decide,
    c3_cached_copy_wins [cachedSample] [freshFeed] "vid1" (by decide) (by decide)⟩

/-- C6: the filter removes an entry iff its duration is present (nonzero) and
strictly below the threshold; the source function `shouldFilterOutEntry` is this
predicate at the configured `shortsThreshold`. -/
theorem c6_filter_iff (threshold : Nat) (entry : FeedEntry) :
    (shouldFilterOutEntry entry
        = shouldFilterOutEntryWith shortsThreshold entry)
    ∧ (shouldFilterOutEntryWith threshold entry = true
        ↔ entry.extraMetadata.videoDuration ≠ 0
          ∧ entry.extraMetadata.videoDuration < threshold) := by
  refine ⟨rfl, ?_⟩
  simp [shouldFilterOutEntryWith, Nat.pos_iff_ne_zero]

/-- C2 (code bug): a single failing locator makes `getFeeds` hang — the
error-reporting loop ranges over the never-closed `errCh`, modelled as `none`
— and the worker that hit the error abandons its remaining locator even
though the fetch of that locator would have succeeded. -/
theorem c2_single_failure_aborts :
    getFeedsModel [[failedFetch, Except.ok okFeed]] = none
    ∧ workerRun [failedFetch, Except.ok okFeed]
        = ([], ["fetch feed: connection refused"]) :=
  ⟨rfl, rfl⟩

/-- C9 counterexample: on the example title of the spec the normalization in the code
does not return `"My amazing video"` — the spaces that preceded the stripped
hashtag tokens are kept. -/
theorem c9_counterexample :
    normalizeTitle "My AMAZING Video #shorts #fun" ≠ some "My amazing video" := by
  decide

/-- C9 amended: on the example title, normalization returns
`"My amazing video  "` — hashtags stripped and sentence-cased, but with the
two blanks that preceded `#shorts` and `#fun` left in place, so the result
carries two trailing spaces. -/
theorem c9_amended_exact_output :
    normalizeTitle "My AMAZING Video #shorts #fun" = some "My amazing video  " := by
  decide

/-- C10: title normalization returns normally on every non-empty raw title,
while the empty title makes the first-character write go out of range
(modelled `none`), and this branch is reachable from the enrichment entry
point `addMetadata` for a cached entry whose duration is present but whose
raw title is empty. -/
theorem c10_empty_title_panics :
    (∀ t : String, t ≠ "" → (normalizeTitle t).isSome = true)
    ∧ normalizeTitle "" = none
    ∧ addMetadata (Except.ok 300000000000) emptyTitleEntry = none := by
  refine ⟨?_, rfl, rfl⟩
  intro t ht
  obtain ⟨data⟩ := t
  cases data with
  | nil => exact absurd rfl ht
  | cons c cs => simp [normalizeTitle, String.toList]

/-- C10 witness: a concrete non-empty title normalizes normally. -/
theorem c10_witness : ("abc" : String) ≠ "" ∧ (normalizeTitle "abc").isSome = true :=
  ⟨by decide, c10_empty_title_panics.1 "abc" (by decide)⟩

/-- C4 counterexample: an entry with absent duration and absent normalized
title whose duration fetch fails is returned unchanged by the enrichment
pass — the early `return` skips title normalization, so `normalizedTitle`
stays absent. -/
theorem c4_counterexample :
    addMetadata (Except.error "duration not found") unenrichedEntry
        = some unenrichedEntry
    ∧ unenrichedEntry.extraMetadata.normalizedTitle = "" :=
  ⟨rfl, rfl⟩

/-- C4 amended: for an entry whose normalized title is absent and whose raw
title normalizes (is non-empty), the enrichment pass fills `normalizedTitle`
provided the duration step does not fail — that is, when the duration is
already present or the duration fetch succeeds. When the duration is absent
and the fetch fails, the pass returns early (see the counterexample). -/
theorem c4_amended_fills_title (entry : FeedEntry) (fetch : Except String Nat)
    (t : String)
    (hnt : entry.extraMetadata.normalizedTitle = "")
    (htitle : normalizeTitle entry.mediaGroup.title = some t)
    (hok : entry.extraMetadata.videoDuration ≠ 0 ∨ ∃ d, fetch = Except.ok d) :
    ∃ result, addMetadata fetch entry = some result
      ∧ result.extraMetadata.normalizedTitle = t := by
  rcases hok with hdur | ⟨d, rfl⟩
  · have hdur' : (entry.extraMetadata.videoDuration == 0) = false := by
      simpa using hdur
    refine ⟨{ entry with extraMetadata.normalizedTitle := t }, ?_, rfl⟩
    simp [addMetadata, hdur', normalizeStep, hnt, htitle]
  · by_cases hdur : entry.extraMetadata.videoDuration = 0
    · refine ⟨{ entry with
          extraMetadata := { videoDuration := d, normalizedTitle := t } }, ?_, rfl⟩
      simp [addMetadata, hdur, normalizeStep, hnt, htitle]
    · have hdur' : (entry.extraMetadata.videoDuration == 0) = false := by
        simpa using hdur
      refine ⟨{ entry with extraMetadata.normalizedTitle := t }, ?_, rfl⟩
      simp [addMetadata, hdur', normalizeStep, hnt, htitle]

/-- C4 witness: the unenriched entry, with a succeeding duration fetch, gets
its title normalized. -/
theorem c4_witness :
    unenrichedEntry.extraMetadata.normalizedTitle = ""
    ∧ normalizeTitle unenrichedEntry.mediaGroup.title = some "Some video"
    ∧ ∃ result, addMetadata (Except.ok 100000000000) unenrichedEntry = some result
        ∧ result.extraMetadata.normalizedTitle = "Some video" :=
  ⟨rfl, by decide,
    c4_amended_fills_title unenrichedEntry (Except.ok 100000000000) "Some video"
      rfl (by decide) (Or.inr ⟨100000000000, rfl⟩)⟩

/-- A list of entries is in non-increasing published order. -/
def SortedByPublishedDesc (l : List FeedEntry) : Prop :=
  l.Pairwise (fun a b => b.published ≤ a.published)

theorem mem_insertDesc {y e : FeedEntry} {l : List FeedEntry} :
    y ∈ insertDesc e l ↔ y = e ∨ y ∈ l := by
  induction l with
  | nil => simp [insertDesc]
  | cons x xs ih =>
    by_cases h : x.published < e.published
    · simp [insertDesc, if_pos h]
    · simp only [insertDesc, if_neg h, List.mem_cons, ih]
      tauto

theorem insertDesc_sorted {e : FeedEntry} {l : List FeedEntry}
    (h : SortedByPublishedDesc l) : SortedByPublishedDesc (insertDesc e l) := by
  induction l with
  | nil => simp [insertDesc, SortedByPublishedDesc]
  | cons x xs ih =>
    obtain ⟨hx, hxs⟩ := List.pairwise_cons.mp h
    by_cases hlt : x.published < e.published
    · rw [SortedByPublishedDesc, insertDesc, if_pos hlt]
      refine List.pairwise_cons.mpr ⟨?_, h⟩
      intro y hy
      rcases List.mem_cons.mp hy with rfl | hy'
      · exact Nat.le_of_lt hlt
      · exact Nat.le_trans (hx y hy') (Nat.le_of_lt hlt)
    · rw [SortedByPublishedDesc, insertDesc, if_neg hlt]
      refine List.pairwise_cons.mpr ⟨?_, ih hxs⟩
      intro y hy
      rcases mem_insertDesc.mp hy with rfl | hy'
      · exact Nat.le_of_not_lt hlt
      · exact hx y hy'

theorem insertDesc_filter (k : Nat) {e : FeedEntry} {l : List FeedEntry}
    (h : SortedByPublishedDesc l) :
    (insertDesc e l).filter (fun x => x.published == k)
      = if e.published = k
        then l.filter (fun x => x.published == k) ++ [e]
        else l.filter (fun x => x.published == k) := by
  induction l with
  | nil =>
    by_cases he : e.published = k <;> simp [insertDesc, List.filter_cons, he]
  | cons x xs ih =>
    obtain ⟨hx, hxs⟩ := List.pairwise_cons.mp h
    by_cases hlt : x.published < e.published
    · rw [insertDesc, if_pos hlt]
      by_cases he : e.published = k
      · have hempty :
            (x :: xs).filter (fun y => y.published == k) = [] := by
          rw [List.filter_eq_nil_iff]
          intro a ha
          have hle : a.published ≤ x.published := by
            rcases List.mem_cons.mp ha with rfl | ha'
            · exact Nat.le_refl _
            · exact hx a ha'
          have : a.published < k := Nat.lt_of_le_of_lt hle (he ▸ hlt)
          simp [Nat.ne_of_lt this]
        rw [if_pos he, hempty, List.filter_cons, hempty]
        simp [he]
      · have hfe : (e.published == k) = false := by simp [he]
        rw [if_neg he, List.filter_cons, hfe]
        simp
    · rw [insertDesc, if_neg hlt]
      rw [List.filter_cons, List.filter_cons, ih hxs]
      by_cases he : e.published = k <;> by_cases hxk : x.published = k <;>
        simp [he, hxk]

theorem sortLoop_sorted (l : List FeedEntry) :
    ∀ acc, SortedByPublishedDesc acc →
      SortedByPublishedDesc (l.foldl (fun a e => insertDesc e a) acc) := by
  induction l with
  | nil => intro acc h; simpa using h
  | cons e rest ih =>
    intro acc h
    rw [List.foldl_cons]
    exact ih _ (insertDesc_sorted h)

theorem sortLoop_filter (k : Nat) (l : List FeedEntry) :
    ∀ acc, SortedByPublishedDesc acc →
      (l.foldl (fun a e => insertDesc e a) acc).filter
          (fun x => x.published == k)
        = acc.filter (fun x => x.published == k)
          ++ l.filter (fun x => x.published == k) := by
  induction l with
  | nil => intro acc h; simp
  | cons e rest ih =>
    intro acc h
    rw [List.foldl_cons, ih _ (insertDesc_sorted h), insertDesc_filter k h,
      List.filter_cons]
    by_cases he : e.published = k <;> simp [he]

/-- C5: the ordering stage of the pipeline sorts non-increasing by published
time; entries with equal published time keep their relative input order (for
every time value, filtering the output down to that value gives exactly the
input entries with that value, in input order); and the visible list after
the shorts filter is still in non-increasing published order. -/
theorem c5_sort_desc_stable (l : List FeedEntry) :
    SortedByPublishedDesc (sortEntries l)
    ∧ (∀ k : Nat, (sortEntries l).filter (fun e => e.published == k)
        = l.filter (fun e => e.published == k))
    ∧ SortedByPublishedDesc
        ((sortEntries l).filter (fun e => !shouldFilterOutEntry e)) := by
  have hs : SortedByPublishedDesc (sortEntries l) :=
    sortLoop_sorted l [] (by simp [SortedByPublishedDesc])
  refine ⟨hs, ?_, ?_⟩
  · intro k
    simpa using sortLoop_filter k l [] (by simp [SortedByPublishedDesc])
  · exact List.Pairwise.sublist (List.filter_sublist _) hs

/-- C7 counterexample: inside the direct `os.WriteFile` call of `writeToCache`, the
cache file passes through observable states (the truncated file, a
half-written prefix) that are neither the previously persisted snapshot nor
the complete new snapshot — a reader can observe a partially written file. -/
theorem c7_counterexample :
    (writeFileStates [1, 2, 3] [4, 5]).all
        (fun s => s == [1, 2, 3] || s == [4, 5]) = false := by
  decide

/-- C7 amended: `writeToCache` does write with restrictive permissions
(`0600`), and the write ends with the complete new snapshot, but it is a
direct truncate-then-write, not write-then-rename: the intermediate
observable states are the old content followed by arbitrary prefixes of the
new content. -/
theorem c7_amended_direct_write (old newContent : List Nat) :
    writeToCachePerm = 0o600
    ∧ (writeFileStates old newContent).head? = some old
    ∧ (writeFileStates old newContent).getLast? = some newContent
    ∧ (writeFileStates old newContent).all
        (fun s => s == old || s.isPrefixOf newContent) = true := by
  refine ⟨rfl, rfl, ?_, ?_⟩
  · rw [writeFileStates, List.range_succ, List.map_append, List.map_singleton,
      List.take_length]
    rw [show old :: ((List.range newContent.length).map
          (fun k => newContent.take k) ++ [newContent])
        = (old :: (List.range newContent.length).map
            (fun k => newContent.take k)) ++ [newContent] from rfl]
    exact List.getLast?_concat _
  · rw [List.all_eq_true]
    intro s hs
    rcases List.mem_cons.mp hs with rfl | hs'
    · simp
    · obtain ⟨k, _, rfl⟩ := List.mem_map.mp hs'
      have : newContent.take k <+: newContent := List.take_prefix k newContent
      simp [ List.isPrefixOf_iff_prefix, this]

/-- C8 counterexample: a response body whose duration matches the outer
wrapper pattern and the simplified minutes+seconds pattern, yet duration
extraction still fails — ten-trillion minutes overflow the 64-bit nanosecond
duration inside `time.ParseDuration`, a third error source that the if-and-only-if of the claim omits. -/
theorem c8_counterexample :
    findMetaCapture overflowBody.toList = some "PT10000000000000M0S".toList
    ∧ findPTMatch "PT10000000000000M0S".toList = some (10000000000000, 0)
    ∧ getVideoDuration overflowBody = Except.error "time: invalid duration" :=
  ⟨by decide, by decide, by decide⟩

/-- C8 amended: duration extraction fails iff the body lacks the outer
wrapper pattern, or the captured encoding does not match the simplified
`PT<minutes>M<seconds>S` form (an hours form such as `PT1H02M03S` does not
match), or the matched value overflows the 64-bit nanosecond duration; on a
successful in-range match the result is `minutes*60 + seconds` seconds. -/
theorem c8_amended_duration_contract (body : String) (cap : List Char)
    (m s : Nat)
    (houter : findMetaCapture body.toList = some cap)
    (hinner : findPTMatch cap = some (m, s))
    (hbound : m * 60000000000 + s * 1000000000 ≤ maxDurationNs) :
    getVideoDuration body = Except.ok ((m * 60 + s) * 1000000000)
    ∧ (∀ body2 : String, findMetaCapture body2.toList = none →
        getVideoDuration body2 = Except.error "duration not found")
    ∧ (∀ (body3 : String) (cap3 : List Char),
        findMetaCapture body3.toList = some cap3 → findPTMatch cap3 = none →
          getVideoDuration body3 = Except.error "duration not parsed correctly")
    ∧ findPTMatch "PT1H02M03S".toList = none := by
  refine ⟨?_, ?_, ?_, by decide⟩
  · have heq : m * 60000000000 + s * 1000000000 = (m * 60 + s) * 1000000000 := by
      ring
    rw [getVideoDuration, houter]
    simp [hinner, hbound, heq]
    omega
  · intro body2 h2
    rw [getVideoDuration, h2]
  · intro body3 cap3 h3 h3'
    rw [getVideoDuration, h3]
    simp [h3']

/-- C8 witness: an ordinary `PT4M13S` body resolves to 253 seconds. -/
theorem c8_witness :
    findMetaCapture durationBody.toList = some "PT4M13S".toList
    ∧ getVideoDuration durationBody = Except.ok ((4 * 60 + 13) * 1000000000) :=
  ⟨by decide,
    (c8_amended_duration_contract durationBody "PT4M13S".toList 4 13
      (by decide) (by decide) (by decide)).1⟩










end YtRss
